import Mathlib

/-!
Verification of the go-onc/xdr codec engine against its specification.

The definitions below are a shallow embedding of the library's wire layer
(`internal/coder` encoder/decoder), its codec tree (the per-type `Encode` /
`Decode` methods), and the relevant parts of the struct-tag layer
(`internal/tags`).  Bytes are modelled as natural numbers below 256, byte
streams as `List Nat`, machine integers as `Nat` bit patterns reduced
modulo the relevant power of two, and fallible operations as `Except`.
Go's `FieldError` path wrapping is elided: errors are identified by their
underlying kind, exactly as `errors.Is` matches them in the source.
-/

namespace XdrSpec

/-- Error kinds, from `internal/errors/errors.go`.  `LengthError\x7bActual, Max\x7d`
is modelled as `lengthExceedsMax actual max` (every raise site in the code
has `actual > max`, which is exactly when `errors.Is(·, ErrLengthExceedsMax)`
holds).  `eof` stands for the I/O error surfaced by a short `io.ReadFull`.
`typeMismatch` marks value/schema shape combinations that Go's type system
makes unrepresentable; no execution of the Go code reaches it. -/
inductive Err where
  | eof
  | invalidValue
  | lengthExceedsMax (actual max : Nat)
  | lengthIncorrect
  | unionSwitchArmUndefined
  | invalidTagForType
  | typeMismatch
  deriving DecidableEq, Repr

/-- One byte of a machine word: `byte(x)` in Go. -/
def byteOf (n : Nat) : Nat := n % 256

/-- Big-endian 4-byte encoding of a 32-bit word: `encoder.EncodeInt` /
`EncodeUnsignedInt` (part_013), which emit `byte(i>>24) byte(i>>16)
byte(i>>8) byte(i)`. -/
def be32 (w : Nat) : List Nat :=
  [byteOf (w / 2 ^ 24), byteOf (w / 2 ^ 16), byteOf (w / 2 ^ 8), byteOf w]

/-- Big-endian 8-byte encoding of a 64-bit word: `encoder.EncodeHyper` /
`EncodeUnsignedHyper`. -/
def be64 (w : Nat) : List Nat :=
  [byteOf (w / 2 ^ 56), byteOf (w / 2 ^ 48), byteOf (w / 2 ^ 40),
   byteOf (w / 2 ^ 32), byteOf (w / 2 ^ 24), byteOf (w / 2 ^ 16),
   byteOf (w / 2 ^ 8), byteOf w]

/-- `encoder.EncodeBool`: `1` for true, `0` for false, as a 4-byte word. -/
def encodeBool (b : Bool) : List Nat := be32 (if b then 1 else 0)

/-- Trailing zero-byte count appended after a body of `n` bytes:
`(4 - (len & 3)) & 3` in `encoder.EncodeFixedOpaque` / `EncodeFixedString`. -/
def padOf (n : Nat) : Nat := (4 - n % 4) % 4

/-- Body-plus-padding length for an `n`-byte body: `(n + 3) & ^3` in
`decoder.DecodeOpaque` / `DecodeFixedOpaque`. -/
def padTo4 (n : Nat) : Nat := (n + 3) / 4 * 4

/-- `encoder.EncodeFixedOpaque`: the body followed by zero padding to a
multiple of four bytes. -/
def encodeFixedOpaque (buf : List Nat) : List Nat :=
  buf ++ List.replicate (padOf buf.length) 0

/-- `encoder.EncodeFixedString`: identical wire form to `EncodeFixedOpaque`
(the string is written as its bytes, then padded). -/
def encodeFixedString (s : List Nat) : List Nat :=
  s ++ List.replicate (padOf s.length) 0

/-- `encoder.EncodeOpaque`: refuse bodies over `2^32 - 1` bytes
(`LengthError\x7blen, MaxUint32\x7d`), else emit the 4-byte length followed by
the padded body. -/
def encodeOpaque (buf : List Nat) : Except Err (List Nat) :=
  if 2 ^ 32 - 1 < buf.length then
    .error (.lengthExceedsMax buf.length (2 ^ 32 - 1))
  else
    .ok (be32 buf.length ++ encodeFixedOpaque buf)

/-- `encoder.EncodeString`: same wire form as `EncodeOpaque`. -/
def encodeString (s : List Nat) : Except Err (List Nat) :=
  if 2 ^ 32 - 1 < s.length then
    .error (.lengthExceedsMax s.length (2 ^ 32 - 1))
  else
    .ok (be32 s.length ++ encodeFixedString s)

/-- `decoder.DecodeUnsignedInt`: read four bytes (`io.ReadFull`; a short
read is an I/O error) and assemble `b0<<24 | b1<<16 | b2<<8 | b3`. -/
def rd32 : List Nat → Except Err (Nat × List Nat)
  | b0 :: b1 :: b2 :: b3 :: rest =>
      .ok (b0 * 2 ^ 24 + b1 * 2 ^ 16 + b2 * 2 ^ 8 + b3, rest)
  | _ => .error .eof

/-- `decoder.DecodeUnsignedHyper`: read eight bytes and assemble the
big-endian 64-bit word. -/
def rd64 : List Nat → Except Err (Nat × List Nat)
  | b0 :: b1 :: b2 :: b3 :: b4 :: b5 :: b6 :: b7 :: rest =>
      .ok (b0 * 2 ^ 56 + b1 * 2 ^ 48 + b2 * 2 ^ 40 + b3 * 2 ^ 32 +
           b4 * 2 ^ 24 + b5 * 2 ^ 16 + b6 * 2 ^ 8 + b7, rest)
  | _ => .error .eof

/-- `decoder.DecodeBool`: read a 4-byte word; `0` is false, `1` is true,
anything else is `ErrInvalidValue`. -/
def decodeBool (input : List Nat) : Except Err (Bool × List Nat) :=
  match rd32 input with
  | .error e => .error e
  | .ok (i, rest) =>
    if i = 0 then .ok (false, rest)
    else if i = 1 then .ok (true, rest)
    else .error .invalidValue

/-- `io.ReadFull` into a buffer of `n` bytes: succeeds with exactly `n`
bytes consumed, or fails when the source is shorter. -/
def readN (n : Nat) (input : List Nat) : Except Err (List Nat × List Nat) :=
  if n ≤ input.length then .ok (input.take n, input.drop n) else .error .eof

/-- `decoder.DecodeFixedOpaque`: fill the caller's buffer, then read and
discard `((n+3) & ^3) - n` padding bytes; both reads propagate errors. -/
def decodeFixedOpaque (n : Nat) (input : List Nat) :
    Except Err (List Nat × List Nat) :=
  match readN n input with
  | .error e => .error e
  | .ok (buf, r1) =>
    match readN (padTo4 n - n) r1 with
    | .error e => .error e
    | .ok (_, r2) => .ok (buf, r2)

/-- `decoder.DecodeFixedString`: a `len`-byte buffer filled by
`DecodeFixedOpaque` and converted to a string. -/
def decodeFixedString (len : Nat) (input : List Nat) :
    Except Err (List Nat × List Nat) :=
  decodeFixedOpaque len input

/-- `decoder.DecodeOpaque`: read the 4-byte length `l`; return empty at
`l = 0`; refuse `l > maxLen` with `LengthError\x7bl, maxLen\x7d`; otherwise
`io.ReadFull` a zeroed buffer of `(l+3) & ^3` bytes and return its first
`l` bytes.  NOTE (faithful to the source): the result of that final
`io.ReadFull` is assigned to `err` but the function returns `nil` — a
short source yields a zero-filled tail and success, not an error. -/
def decodeOpaque (maxLen : Nat) (input : List Nat) :
    Except Err (List Nat × List Nat) :=
  match rd32 input with
  | .error e => .error e
  | .ok (l, rest) =>
    if l = 0 then .ok ([], rest)
    else if maxLen < l then .error (.lengthExceedsMax l maxLen)
    else
      let lPad := padTo4 l
      let buf := rest.take lPad ++ List.replicate (lPad - rest.length) 0
      .ok (buf.take l, rest.drop lPad)

/-- `decoder.DecodeString`: `DecodeOpaque` with the bytes viewed as a
string. -/
def decodeString (maxLen : Nat) (input : List Nat) :
    Except Err (List Nat × List Nat) :=
  decodeOpaque maxLen input

theorem padTo4_eq (n : Nat) : padTo4 n = n + padOf n := by
  unfold padTo4 padOf
  omega

theorem padTo4_mod (n : Nat) : padTo4 n % 4 = 0 := by
  unfold padTo4
  omega

theorem be32_length (w : Nat) : (be32 w).length = 4 := rfl

theorem be64_length (w : Nat) : (be64 w).length = 8 := rfl

theorem encodeFixedOpaque_length (buf : List Nat) :
    (encodeFixedOpaque buf).length = padTo4 buf.length := by
  simp [encodeFixedOpaque, padTo4_eq]

theorem encodeFixedString_length (s : List Nat) :
    (encodeFixedString s).length = padTo4 s.length := by
  simp [encodeFixedString, padTo4_eq]

theorem rd32_be32 (w : Nat) (rest : List Nat) (hw : w < 2 ^ 32) :
    rd32 (be32 w ++ rest) = .ok (w, rest) := by
  simp only [be32, byteOf, List.cons_append, List.nil_append, rd32]
  congr 2
  omega

theorem rd64_be64 (w : Nat) (rest : List Nat) (hw : w < 2 ^ 64) :
    rd64 (be64 w ++ rest) = .ok (w, rest) := by
  simp only [be64, byteOf, List.cons_append, List.nil_append, rd64]
  congr 2
  omega

theorem decodeBool_false (rest : List Nat) :
    decodeBool (be32 0 ++ rest) = .ok (false, rest) := by
  simp [decodeBool, rd32_be32]

theorem decodeBool_true (rest : List Nat) :
    decodeBool (be32 1 ++ rest) = .ok (true, rest) := by
  simp [decodeBool, rd32_be32]

theorem decodeBool_invalid (w : Nat) (rest : List Nat) (h2 : 2 ≤ w)
    (hw : w < 2 ^ 32) :
    decodeBool (be32 w ++ rest) = .error .invalidValue := by
  rw [decodeBool, rd32_be32 w rest hw]
  have h0 : ¬ w = 0 := by omega
  have h1 : ¬ w = 1 := by omega
  simp [h0, h1]

theorem readN_exact (xs rest : List Nat) :
    readN xs.length (xs ++ rest) = .ok (xs, rest) := by
  simp [readN, List.take_left, List.drop_left]

theorem decodeFixedOpaque_spec (bs rest : List Nat) :
    decodeFixedOpaque bs.length
      (encodeFixedOpaque bs ++ rest) = .ok (bs, rest) := by
  have hpad : (List.replicate (padOf bs.length) 0 : List Nat).length =
      padTo4 bs.length - bs.length := by
    simp [padTo4_eq]
  rw [decodeFixedOpaque, encodeFixedOpaque, List.append_assoc,
    readN_exact bs (List.replicate (padOf bs.length) 0 ++ rest)]
  dsimp only
  rw [← hpad, readN_exact]

theorem decodeOpaque_spec (maxLen : Nat) (bs rest : List Nat)
    (hmax : bs.length ≤ maxLen) (h32 : bs.length < 2 ^ 32) :
    decodeOpaque maxLen (be32 bs.length ++ (encodeFixedOpaque bs ++ rest)) =
      .ok (bs, rest) := by
  rw [decodeOpaque, rd32_be32 _ _ h32]
  dsimp only
  by_cases h0 : bs.length = 0
  · rw [List.length_eq_zero] at h0
    subst h0
    simp [encodeFixedOpaque, padOf]
  · have hm : ¬ maxLen < bs.length := by omega
    simp only [h0, if_false, hm]
    have hlen : (encodeFixedOpaque bs).length = padTo4 bs.length :=
      encodeFixedOpaque_length bs
    have hbig : padTo4 bs.length ≤ (encodeFixedOpaque bs ++ rest).length := by
      rw [List.length_append, hlen]
      omega
    have hrep : padTo4 bs.length - (encodeFixedOpaque bs ++ rest).length = 0 := by
      omega
    rw [hrep]
    simp only [List.replicate_zero, List.append_nil]
    rw [List.take_left' hlen, List.drop_left' hlen]
    congr 1
    rw [encodeFixedOpaque]
    have : bs.length ≤ (bs ++ List.replicate (padOf bs.length) 0).length := by
      simp
    rw [List.take_left]

/-- Classification of a union switch field, from `switchKind` in part_009
(`makeStructCodec`): boolean, signed 32-bit, or unsigned 32-bit. -/
inductive SwitchKind where
  | sbool
  | sint
  | suint
  deriving DecidableEq, Repr

/-- Schemas: the codec shapes the engine derives from a Go `(type, tag)`
pair.  Maxima and fixed lengths come from `len:` / `maxlen:` tags (32-bit
values in the source) or are implicit (`2^32 - 1`).  `sword32` covers
`int32` / `uint32` / `float32` (the wire word is the value's 32-bit
pattern; `math.Float32bits` is the identity on the pattern), and `sword64`
covers `int64` / `uint64` / `float64` likewise. -/
inductive Schema where
  | sbool
  | sint8
  | suint8
  | sint16
  | suint16
  | sword32
  | sword64
  | fixedOpaque (n : Nat)
  | varOpaque (max : Nat)
  | fixedString (n : Nat)
  | varString (max : Nat)
  | fixedArray (n : Nat) (elem : Schema)
  | varArray (max : Nat) (elem : Schema)
  | opt (elem : Schema)
  | sstruct (fields : List Schema)
  | sunion (sw : SwitchKind) (cases : List (Nat × Schema)) (dflt : Option Schema)

/-- Values: the Go values the codecs operate on.  Machine integers and
floats are carried as bit patterns (`w8`/`w16`/`w32`/`w64`); `bytes` is an
opaque body, `str` a string body; `vunion disc arm` carries the 32-bit
discriminant pattern and the value of the selected body field (for a
boolean switch, `disc` is `1` for true and `0` for false). -/
inductive Val where
  | vbool (b : Bool)
  | w8 (n : Nat)
  | w16 (n : Nat)
  | w32 (n : Nat)
  | w64 (n : Nat)
  | bytes (bs : List Nat)
  | str (bs : List Nat)
  | arr (vs : List Val)
  | vnone
  | vsome (v : Val)
  | vstruct (vs : List Val)
  | vunion (disc : Nat) (arm : Val)

/-- Sign extension of an 8-bit pattern to a 32-bit pattern:
`int32(*int8)` in `int8Codec.encodeUnsafe`. -/
def signExt8 (b : Nat) : Nat := if b < 2 ^ 7 then b else 2 ^ 32 - 2 ^ 8 + b

/-- Sign extension of a 16-bit pattern to a 32-bit pattern:
`int32(*int16)` in `int16Codec.encodeUnsafe`. -/
def signExt16 (b : Nat) : Nat := if b < 2 ^ 15 then b else 2 ^ 32 - 2 ^ 16 + b

/-- Encoding of a union discriminant, from `unionCodec.encodeReflect`: the
switch field is written through its own codec, so a boolean switch emits
`EncodeBool` (the word `1` iff the field is true, i.e. iff `disc = 1`) and
a 32-bit switch emits its pattern. -/
def encodeSwitch : SwitchKind → Nat → List Nat
  | .sbool, disc => encodeBool (disc == 1)
  | .sint, disc => be32 disc
  | .suint, disc => be32 disc

/-- Decoding of a union discriminant, from `unionCodec.Decode`: the switch
field is decoded through its own codec, then widened to the 32-bit `swVal`
(`1` iff a boolean switch read true). -/
def decodeSwitch : SwitchKind → List Nat → Except Err (Nat × List Nat)
  | .sbool, input =>
    (match decodeBool input with
     | .error e => .error e
     | .ok (b, rest) => .ok (if b then 1 else 0, rest))
  | .sint, input => rd32 input
  | .suint, input => rd32 input

mutual

/-- The encode side of the codec tree, case by case from the source:
`boolCodec` / `intCodec` / `uintCodec` / `hyperCodec` / `floatCodec` /
`doubleCodec` (codec_primitive.go), `opaqueArrayCodec` / `arrayCodec` /
`opaqueSliceCodec` / `sliceCodec` (part_003), `fixedStringCodec` /
`varStringCodec` (part_008), `optCodec` (codec_ptr.go), `structCodec` /
`unionCodec` (part_009/part_010).  The Go encoder writes to a stream, so
on an error some bytes may already be on the wire; `Except` keeps only the
error, which is what every claim here is about.  A value whose shape does
not fit the schema cannot occur in Go and maps to `typeMismatch`. -/
def encode : Schema → Val → Except Err (List Nat)
  | .sbool, .vbool b => .ok (encodeBool b)
  | .sint8, .w8 n => .ok (be32 (signExt8 n))
  | .suint8, .w8 n => .ok (be32 n)
  | .sint16, .w16 n => .ok (be32 (signExt16 n))
  | .suint16, .w16 n => .ok (be32 n)
  | .sword32, .w32 n => .ok (be32 n)
  | .sword64, .w64 n => .ok (be64 n)
  | .fixedOpaque _, .bytes bs => .ok (encodeFixedOpaque bs)
  | .varOpaque max, .bytes bs =>
    if max < bs.length then .error (.lengthExceedsMax bs.length max)
    else encodeOpaque bs
  | .fixedString n, .str bs =>
    if bs.length = n then .ok (encodeFixedString bs)
    else .error .lengthIncorrect
  | .varString max, .str bs =>
    if bs.length ≤ max then encodeString bs
    else .error (.lengthExceedsMax bs.length max)
  | .fixedArray _ e, .arr vs => encodeElems e vs
  | .varArray max e, .arr vs =>
    if max < vs.length then .error (.lengthExceedsMax vs.length max)
    else
      match encodeElems e vs with
      | .error er => .error er
      | .ok body => .ok (be32 vs.length ++ body)
  | .opt _, .vnone => .ok (encodeBool false)
  | .opt e, .vsome v =>
    (match encode e v with
     | .error er => .error er
     | .ok body => .ok (encodeBool true ++ body))
  | .sstruct fs, .vstruct vs => encodeFields fs vs
  | .sunion sw cases dflt, .vunion disc arm =>
    (match encodeCases cases dflt disc arm with
     | .error er => .error er
     | .ok body => .ok (encodeSwitch sw disc ++ body))
  | _, _ => .error .typeMismatch
termination_by s _ => (sizeOf s, 0)
decreasing_by all_goals (simp_wf; omega)

/-- Element loop of `arrayCodec.Encode` / `sliceCodec.Encode`. -/
def encodeElems : Schema → List Val → Except Err (List Nat)
  | _, [] => .ok []
  | e, v :: vs =>
    (match encode e v with
     | .error er => .error er
     | .ok b =>
       match encodeElems e vs with
       | .error er => .error er
       | .ok body => .ok (b ++ body))
termination_by e vs => (sizeOf e, vs.length + 1)
decreasing_by all_goals (simp_wf; omega)

/-- Field loop of `structCodec.encodeReflect`. -/
def encodeFields : List Schema → List Val → Except Err (List Nat)
  | [], [] => .ok []
  | s :: ss, v :: vs =>
    (match encode s v with
     | .error er => .error er
     | .ok b =>
       match encodeFields ss vs with
       | .error er => .error er
       | .ok body => .ok (b ++ body))
  | _, _ => .error .typeMismatch
termination_by ss _ => (sizeOf ss, 0)
decreasing_by all_goals (simp_wf; omega)

/-- Arm selection of `unionCodec.encodeReflect`: look the discriminant up
in the case table (a Go map with distinct keys, here a first-match list),
fall back to the default arm, and fail with `ErrUnionSwitchArmUndefined`
when neither exists. -/
def encodeCases : List (Nat × Schema) → Option Schema → Nat → Val →
    Except Err (List Nat)
  | [], none, _, _ => .error .unionSwitchArmUndefined
  | [], some s, _, arm => encode s arm
  | (v, s) :: cs, dflt, disc, arm =>
    if v = disc then encode s arm else encodeCases cs dflt disc arm
termination_by cs dflt _ _ => (sizeOf cs + sizeOf dflt, 0)
decreasing_by all_goals (simp_wf; omega)

end

mutual

/-- The decode side of the codec tree, case by case from the source (same
files as `encode`).  8- and 16-bit integers read a full 4-byte word and
keep its low-order bits (`int8(i)` / `uint16(i)` after `DecodeInt` /
`DecodeUnsignedInt`, and `reflect.Value.SetInt` / `SetUint` truncate the
same way on the reflection path); `sliceCodec.Decode` checks the length
against the maximum after its `l == 0` shortcut. -/
def decode : Schema → List Nat → Except Err (Val × List Nat)
  | .sbool, input =>
    (match decodeBool input with
     | .error er => .error er
     | .ok (b, rest) => .ok (.vbool b, rest))
  | .sint8, input =>
    (match rd32 input with
     | .error er => .error er
     | .ok (w, rest) => .ok (.w8 (w % 2 ^ 8), rest))
  | .suint8, input =>
    (match rd32 input with
     | .error er => .error er
     | .ok (w, rest) => .ok (.w8 (w % 2 ^ 8), rest))
  | .sint16, input =>
    (match rd32 input with
     | .error er => .error er
     | .ok (w, rest) => .ok (.w16 (w % 2 ^ 16), rest))
  | .suint16, input =>
    (match rd32 input with
     | .error er => .error er
     | .ok (w, rest) => .ok (.w16 (w % 2 ^ 16), rest))
  | .sword32, input =>
    (match rd32 input with
     | .error er => .error er
     | .ok (w, rest) => .ok (.w32 w, rest))
  | .sword64, input =>
    (match rd64 input with
     | .error er => .error er
     | .ok (w, rest) => .ok (.w64 w, rest))
  | .fixedOpaque n, input =>
    (match decodeFixedOpaque n input with
     | .error er => .error er
     | .ok (buf, rest) => .ok (.bytes buf, rest))
  | .varOpaque max, input =>
    (match decodeOpaque max input with
     | .error er => .error er
     | .ok (buf, rest) => .ok (.bytes buf, rest))
  | .fixedString n, input =>
    (match decodeFixedString n input with
     | .error er => .error er
     | .ok (buf, rest) => .ok (.str buf, rest))
  | .varString max, input =>
    (match decodeString max input with
     | .error er => .error er
     | .ok (buf, rest) => .ok (.str buf, rest))
  | .fixedArray n e, input =>
    (match decodeElems e n input with
     | .error er => .error er
     | .ok (vs, rest) => .ok (.arr vs, rest))
  | .varArray max e, input =>
    (match rd32 input with
     | .error er => .error er
     | .ok (l, rest) =>
       if l = 0 then .ok (.arr [], rest)
       else if max < l then .error (.lengthExceedsMax l max)
       else
         match decodeElems e l rest with
         | .error er => .error er
         | .ok (vs, rest2) => .ok (.arr vs, rest2))
  | .opt e, input =>
    (match decodeBool input with
     | .error er => .error er
     | .ok (true, rest) =>
       (match decode e rest with
        | .error er => .error er
        | .ok (v, rest2) => .ok (.vsome v, rest2))
     | .ok (false, rest) => .ok (.vnone, rest))
  | .sstruct fs, input =>
    (match decodeFields fs input with
     | .error er => .error er
     | .ok (vs, rest) => .ok (.vstruct vs, rest))
  | .sunion sw cases dflt, input =>
    (match decodeSwitch sw input with
     | .error er => .error er
     | .ok (disc, rest) =>
       match decodeCases cases dflt disc rest with
       | .error er => .error er
       | .ok (arm, rest2) => .ok (.vunion disc arm, rest2))
termination_by s _ => (sizeOf s, 0)
decreasing_by all_goals (simp_wf; omega)

/-- Element loop of `arrayCodec.Decode` / `sliceCodec.Decode`: decode `n`
elements in order, stopping at the first error. -/
def decodeElems : Schema → Nat → List Nat → Except Err (List Val × List Nat)
  | _, 0, input => .ok ([], input)
  | e, n + 1, input =>
    (match decode e input with
     | .error er => .error er
     | .ok (v, rest) =>
       match decodeElems e n rest with
       | .error er => .error er
       | .ok (vs, rest2) => .ok (v :: vs, rest2))
termination_by e n _ => (sizeOf e, n + 1)
decreasing_by all_goals (simp_wf; omega)

/-- Field loop of `structCodec.Decode`. -/
def decodeFields : List Schema → List Nat → Except Err (List Val × List Nat)
  | [], input => .ok ([], input)
  | s :: ss, input =>
    (match decode s input with
     | .error er => .error er
     | .ok (v, rest) =>
       match decodeFields ss rest with
       | .error er => .error er
       | .ok (vs, rest2) => .ok (v :: vs, rest2))
termination_by ss _ => (sizeOf ss, 0)
decreasing_by all_goals (simp_wf; omega)

/-- Arm selection of `unionCodec.Decode`: look the discriminant up in the
case table, fall back to the default arm, and fail with
`ErrUnionSwitchArmUndefined` when neither exists; only the selected arm is
decoded. -/
def decodeCases : List (Nat × Schema) → Option Schema → Nat → List Nat →
    Except Err (Val × List Nat)
  | [], none, _, _ => .error .unionSwitchArmUndefined
  | [], some s, _, input => decode s input
  | (v, s) :: cs, dflt, disc, input =>
    if v = disc then decode s input else decodeCases cs dflt disc input
termination_by cs dflt _ _ => (sizeOf cs + sizeOf dflt, 0)
decreasing_by all_goals (simp_wf; omega)

end

/-- Domain of a union discriminant pattern: a boolean switch field holds
`0` or `1`; a 32-bit switch holds any 32-bit pattern. -/
def discOK : SwitchKind → Nat → Bool
  | .sbool, d => decide (d < 2)
  | .sint, d => decide (d < 2 ^ 32)
  | .suint, d => decide (d < 2 ^ 32)

mutual

/-- Well-formedness of a value for a schema: exactly the constraints Go's
type system and the tag layer impose on a value the source could be asked
to encode (bit patterns within the field width, bytes below 256, a fixed
array's length fixed by its type, maxima 32-bit as in the `maxlen:` tag,
a union discriminant that selects an arm of the right shape). -/
def wf : Schema → Val → Bool
  | .sbool, .vbool _ => true
  | .sint8, .w8 n => decide (n < 2 ^ 8)
  | .suint8, .w8 n => decide (n < 2 ^ 8)
  | .sint16, .w16 n => decide (n < 2 ^ 16)
  | .suint16, .w16 n => decide (n < 2 ^ 16)
  | .sword32, .w32 n => decide (n < 2 ^ 32)
  | .sword64, .w64 n => decide (n < 2 ^ 64)
  | .fixedOpaque n, .bytes bs =>
    decide (bs.length = n) && bs.all (fun b => decide (b < 256))
  | .varOpaque _, .bytes bs => bs.all (fun b => decide (b < 256))
  | .fixedString _, .str bs => bs.all (fun b => decide (b < 256))
  | .varString _, .str bs => bs.all (fun b => decide (b < 256))
  | .fixedArray n e, .arr vs => decide (vs.length = n) && wfElems e vs
  | .varArray max e, .arr vs => decide (max < 2 ^ 32) && wfElems e vs
  | .opt _, .vnone => true
  | .opt e, .vsome v => wf e v
  | .sstruct fs, .vstruct vs => wfFields fs vs
  | .sunion sw cases dflt, .vunion disc arm =>
    discOK sw disc && wfCases cases dflt disc arm
  | _, _ => false
termination_by s _ => (sizeOf s, 0)
decreasing_by all_goals (simp_wf; omega)

/-- Pointwise well-formedness of array/slice elements. -/
def wfElems : Schema → List Val → Bool
  | _, [] => true
  | e, v :: vs => wf e v && wfElems e vs
termination_by e vs => (sizeOf e, vs.length + 1)
decreasing_by all_goals (simp_wf; omega)

/-- Pointwise well-formedness of struct fields. -/
def wfFields : List Schema → List Val → Bool
  | [], [] => true
  | s :: ss, v :: vs => wf s v && wfFields ss vs
  | _, _ => false
termination_by ss _ => (sizeOf ss, 0)
decreasing_by all_goals (simp_wf; omega)

/-- The union arm selected by the discriminant exists and the arm value
fits its schema. -/
def wfCases : List (Nat × Schema) → Option Schema → Nat → Val → Bool
  | [], none, _, _ => false
  | [], some s, _, arm => wf s arm
  | (v, s) :: cs, dflt, disc, arm =>
    if v = disc then wf s arm else wfCases cs dflt disc arm
termination_by cs dflt _ _ => (sizeOf cs + sizeOf dflt, 0)
decreasing_by all_goals (simp_wf; omega)

end

theorem encodeFixedString_eq (s : List Nat) :
    encodeFixedString s = encodeFixedOpaque s := rfl

theorem decodeSwitch_encodeSwitch (sw : SwitchKind) (disc : Nat)
    (rest : List Nat) (h : discOK sw disc = true) :
    decodeSwitch sw (encodeSwitch sw disc ++ rest) = .ok (disc, rest) := by
  cases sw with
  | sbool =>
    simp only [discOK, decide_eq_true_eq] at h
    have hd : disc = 0 ∨ disc = 1 := by omega
    rcases hd with hd | hd <;> subst hd <;>
      simp [decodeSwitch, encodeSwitch, encodeBool, decodeBool_false,
        decodeBool_true]
  | sint =>
    simp only [discOK, decide_eq_true_eq] at h
    simp [decodeSwitch, encodeSwitch, rd32_be32 disc rest h]
  | suint =>
    simp only [discOK, decide_eq_true_eq] at h
    simp [decodeSwitch, encodeSwitch, rd32_be32 disc rest h]


mutual

/-- Round-trip of a single value: decoding the bytes `encode` produced,
followed by any continuation of the stream, returns exactly the encoded
value and leaves the continuation untouched. -/
theorem decode_encode : ∀ (s : Schema) (v : Val) (bs rest : List Nat),
    wf s v = true → encode s v = .ok bs →
    decode s (bs ++ rest) = .ok (v, rest)
  | .sbool, v, bs, rest, hwf, henc => by
    cases v <;> simp only [encode, Except.ok.injEq, reduceCtorEq] at henc
    case vbool b =>
      subst henc
      cases b <;>
        simp [decode, encodeBool, decodeBool_false, decodeBool_true]
  | .sint8, v, bs, rest, hwf, henc => by
    cases v <;> simp only [encode, Except.ok.injEq, reduceCtorEq] at henc
    case w8 n =>
      subst henc
      simp only [wf, decide_eq_true_eq] at hwf
      have h32 : signExt8 n < 2 ^ 32 := by unfold signExt8; split <;> omega
      have hmod : signExt8 n % 256 = n := by unfold signExt8; split <;> omega
      simp [decode, rd32_be32 _ _ h32, hmod]
  | .suint8, v, bs, rest, hwf, henc => by
    cases v <;> simp only [encode, Except.ok.injEq, reduceCtorEq] at henc
    case w8 n =>
      subst henc
      simp only [wf, decide_eq_true_eq] at hwf
      have h32 : n < 2 ^ 32 := by omega
      have hmod : n % 256 = n := by omega
      simp [decode, rd32_be32 _ _ h32, hmod]
  | .sint16, v, bs, rest, hwf, henc => by
    cases v <;> simp only [encode, Except.ok.injEq, reduceCtorEq] at henc
    case w16 n =>
      subst henc
      simp only [wf, decide_eq_true_eq] at hwf
      have h32 : signExt16 n < 2 ^ 32 := by unfold signExt16; split <;> omega
      have hmod : signExt16 n % 65536 = n := by
        unfold signExt16; split <;> omega
      simp [decode, rd32_be32 _ _ h32, hmod]
  | .suint16, v, bs, rest, hwf, henc => by
    cases v <;> simp only [encode, Except.ok.injEq, reduceCtorEq] at henc
    case w16 n =>
      subst henc
      simp only [wf, decide_eq_true_eq] at hwf
      have h32 : n < 2 ^ 32 := by omega
      have hmod : n % 65536 = n := by omega
      simp [decode, rd32_be32 _ _ h32, hmod]
  | .sword32, v, bs, rest, hwf, henc => by
    cases v <;> simp only [encode, Except.ok.injEq, reduceCtorEq] at henc
    case w32 n =>
      subst henc
      simp only [wf, decide_eq_true_eq] at hwf
      simp [decode, rd32_be32 _ _ hwf]
  | .sword64, v, bs, rest, hwf, henc => by
    cases v <;> simp only [encode, Except.ok.injEq, reduceCtorEq] at henc
    case w64 n =>
      subst henc
      simp only [wf, decide_eq_true_eq] at hwf
      simp [decode, rd64_be64 _ _ hwf]
  | .fixedOpaque n, v, bs, rest, hwf, henc => by
    cases v <;> simp only [encode, Except.ok.injEq, reduceCtorEq] at henc
    case bytes body =>
      subst henc
      simp only [wf, Bool.and_eq_true, decide_eq_true_eq] at hwf
      obtain ⟨hlen, -⟩ := hwf
      subst hlen
      simp [decode, decodeFixedOpaque_spec]
  | .varOpaque max, v, bs, rest, hwf, henc => by
    cases v <;> simp only [encode, reduceCtorEq] at henc
    case bytes body =>
      split at henc
      · cases henc
      · rename_i hmax
        simp only [encodeOpaque] at henc
        split at henc
        · cases henc
        · rename_i h32
          simp only [Except.ok.injEq] at henc
          subst henc
          simp only [decode, List.append_assoc]
          rw [decodeOpaque_spec max body rest (by omega) (by omega)]
  | .fixedString n, v, bs, rest, hwf, henc => by
    cases v <;> simp only [encode, reduceCtorEq] at henc
    case str body =>
      split at henc
      · rename_i hlen
        simp only [Except.ok.injEq] at henc
        subst henc
        subst hlen
        simp [decode, decodeFixedString, encodeFixedString_eq,
          decodeFixedOpaque_spec]
      · cases henc
  | .varString max, v, bs, rest, hwf, henc => by
    cases v <;> simp only [encode, reduceCtorEq] at henc
    case str body =>
      split at henc
      · rename_i hmax
        simp only [encodeString] at henc
        split at henc
        · cases henc
        · rename_i h32
          simp only [Except.ok.injEq] at henc
          subst henc
          simp only [decode, decodeString, List.append_assoc,
            encodeFixedString_eq]
          rw [decodeOpaque_spec max body rest (by omega) (by omega)]
      · cases henc
  | .fixedArray n e, v, bs, rest, hwf, henc => by
    cases v <;> simp only [encode, reduceCtorEq] at henc
    case arr vs =>
      simp only [wf, Bool.and_eq_true, decide_eq_true_eq] at hwf
      obtain ⟨hlen, hwfe⟩ := hwf
      subst hlen
      simp only [decode, decodeElems_encodeElems e vs bs rest hwfe henc]
  | .varArray max e, v, bs, rest, hwf, henc => by
    cases v <;> simp only [encode, reduceCtorEq] at henc
    case arr vs =>
      simp only [wf, Bool.and_eq_true, decide_eq_true_eq] at hwf
      obtain ⟨hmax32, hwfe⟩ := hwf
      split at henc
      · cases henc
      · rename_i hmax
        cases hbody : encodeElems e vs with
        | error er => rw [hbody] at henc; cases henc
        | ok body =>
          rw [hbody] at henc
          simp only [Except.ok.injEq] at henc
          subst henc
          have hl32 : vs.length < 2 ^ 32 := by omega
          simp only [decode, List.append_assoc, rd32_be32 _ _ hl32]
          by_cases h0 : vs.length = 0
          · rw [List.length_eq_zero] at h0
            subst h0
            simp only [encodeElems, Except.ok.injEq] at hbody
            subst hbody
            simp
          · simp only [h0, if_false]
            have hm : ¬ max < vs.length := hmax
            simp only [hm, if_false]
            rw [decodeElems_encodeElems e vs body rest hwfe hbody]
  | .opt e, v, bs, rest, hwf, henc => by
    cases v <;> simp only [encode, reduceCtorEq] at henc
    case vnone =>
      simp only [Except.ok.injEq] at henc
      subst henc
      simp [decode, encodeBool, decodeBool_false]
    case vsome v =>
      simp only [wf] at hwf
      cases hbody : encode e v with
      | error er => rw [hbody] at henc; cases henc
      | ok body =>
        rw [hbody] at henc
        simp only [Except.ok.injEq] at henc
        subst henc
        simp only [decode, encodeBool, if_true, List.append_assoc,
          decodeBool_true, decode_encode e v body rest hwf hbody]
  | .sstruct fs, v, bs, rest, hwf, henc => by
    cases v <;> simp only [encode, reduceCtorEq] at henc
    case vstruct vs =>
      simp only [wf] at hwf
      simp only [decode, decodeFields_encodeFields fs vs bs rest hwf henc]
  | .sunion sw cases_ dflt, v, bs, rest, hwf, henc => by
    cases v <;> simp only [encode, reduceCtorEq] at henc
    case vunion disc arm =>
      simp only [wf, Bool.and_eq_true] at hwf
      obtain ⟨hdisc, hwfc⟩ := hwf
      cases hbody : encodeCases cases_ dflt disc arm with
      | error er => rw [hbody] at henc; cases henc
      | ok body =>
        rw [hbody] at henc
        simp only [Except.ok.injEq] at henc
        subst henc
        simp only [decode, List.append_assoc]
        rw [decodeSwitch_encodeSwitch sw disc _ hdisc]
        simp only
        rw [decodeCases_encodeCases cases_ dflt disc arm body rest hwfc hbody]
termination_by s _ _ _ _ _ => (sizeOf s, 0)
decreasing_by all_goals (simp_wf; omega)

/-- Round-trip of an element sequence (array/slice loops). -/
theorem decodeElems_encodeElems : ∀ (e : Schema) (vs : List Val)
    (bs rest : List Nat), wfElems e vs = true → encodeElems e vs = .ok bs →
    decodeElems e vs.length (bs ++ rest) = .ok (vs, rest)
  | e, [], bs, rest, hwf, henc => by
    simp only [encodeElems, Except.ok.injEq] at henc
    subst henc
    simp [decodeElems]
  | e, v :: vs, bs, rest, hwf, henc => by
    simp only [wfElems, Bool.and_eq_true] at hwf
    obtain ⟨hv, hvs⟩ := hwf
    cases hb : encode e v with
    | error er => simp only [encodeElems, hb, reduceCtorEq] at henc
    | ok b =>
      cases hbody : encodeElems e vs with
      | error er => simp only [encodeElems, hb, hbody, reduceCtorEq] at henc
      | ok body =>
        simp only [encodeElems, hb, hbody, Except.ok.injEq] at henc
        subst henc
        simp only [List.length_cons, decodeElems, List.append_assoc,
          decode_encode e v b (body ++ rest) hv hb,
          decodeElems_encodeElems e vs body rest hvs hbody]
termination_by e vs _ _ _ _ => (sizeOf e, vs.length + 1)
decreasing_by all_goals (simp_wf; omega)

/-- Round-trip of a struct's field sequence. -/
theorem decodeFields_encodeFields : ∀ (ss : List Schema) (vs : List Val)
    (bs rest : List Nat), wfFields ss vs = true → encodeFields ss vs = .ok bs →
    decodeFields ss (bs ++ rest) = .ok (vs, rest)
  | [], vs, bs, rest, hwf, henc => by
    cases vs with
    | nil =>
      simp only [encodeFields, Except.ok.injEq] at henc
      subst henc
      simp [decodeFields]
    | cons v vs =>
      simp only [wfFields] at hwf
      exact absurd hwf (by decide)
  | s :: ss, vs, bs, rest, hwf, henc => by
    cases vs with
    | nil =>
      simp only [wfFields] at hwf
      exact absurd hwf (by decide)
    | cons v vs =>
      simp only [wfFields, Bool.and_eq_true] at hwf
      obtain ⟨hv, hvs⟩ := hwf
      cases hb : encode s v with
      | error er => simp only [encodeFields, hb, reduceCtorEq] at henc
      | ok b =>
        cases hbody : encodeFields ss vs with
        | error er =>
          simp only [encodeFields, hb, hbody, reduceCtorEq] at henc
        | ok body =>
          simp only [encodeFields, hb, hbody, Except.ok.injEq] at henc
          subst henc
          simp only [decodeFields, List.append_assoc,
            decode_encode s v b (body ++ rest) hv hb,
            decodeFields_encodeFields ss vs body rest hvs hbody]
termination_by ss _ _ _ _ _ => (sizeOf ss, 0)
decreasing_by all_goals (simp_wf; omega)

/-- Round-trip of a union's selected arm. -/
theorem decodeCases_encodeCases : ∀ (cs : List (Nat × Schema))
    (dflt : Option Schema) (disc : Nat) (arm : Val) (bs rest : List Nat),
    wfCases cs dflt disc arm = true → encodeCases cs dflt disc arm = .ok bs →
    decodeCases cs dflt disc (bs ++ rest) = .ok (arm, rest)
  | [], none, disc, arm, bs, rest, hwf, henc => by
    simp only [wfCases] at hwf
    exact absurd hwf (by decide)
  | [], some s, disc, arm, bs, rest, hwf, henc => by
    simp only [wfCases] at hwf
    simp only [encodeCases] at henc
    simp only [decodeCases]
    exact decode_encode s arm bs rest hwf henc
  | (cv, cschema) :: cs, dflt, disc, arm, bs, rest, hwf, henc => by
    by_cases hv : cv = disc
    · subst hv
      simp only [wfCases, if_pos rfl] at hwf
      simp only [encodeCases, if_pos rfl] at henc
      simp only [decodeCases, if_pos rfl]
      exact decode_encode cschema arm bs rest hwf henc
    · simp only [wfCases, if_neg hv] at hwf
      simp only [encodeCases, if_neg hv] at henc
      simp only [decodeCases, if_neg hv]
      exact decodeCases_encodeCases cs dflt disc arm bs rest hwf henc
termination_by cs dflt _ _ _ _ _ _ => (sizeOf cs + sizeOf dflt, 0)
decreasing_by all_goals (simp_wf; omega)

end

theorem encodeBool_length (b : Bool) : (encodeBool b).length = 4 := by
  cases b <;> rfl

theorem encodeSwitch_length (sw : SwitchKind) (disc : Nat) :
    (encodeSwitch sw disc).length = 4 := by
  cases sw <;> simp [encodeSwitch, encodeBool_length, be32_length]

mutual

/-- Every successful encoding has a length divisible by four (each wire
object is a whole number of 4-byte words: words, padded bodies, and
concatenations thereof). -/
theorem encode_length_mod4 : ∀ (s : Schema) (v : Val) (bs : List Nat),
    encode s v = .ok bs → bs.length % 4 = 0
  | .sbool, v, bs, henc => by
    cases v <;> simp only [encode, Except.ok.injEq, reduceCtorEq] at henc
    case vbool b => subst henc; simp [encodeBool_length]
  | .sint8, v, bs, henc => by
    cases v <;> simp only [encode, Except.ok.injEq, reduceCtorEq] at henc
    case w8 n => subst henc; simp [be32_length]
  | .suint8, v, bs, henc => by
    cases v <;> simp only [encode, Except.ok.injEq, reduceCtorEq] at henc
    case w8 n => subst henc; simp [be32_length]
  | .sint16, v, bs, henc => by
    cases v <;> simp only [encode, Except.ok.injEq, reduceCtorEq] at henc
    case w16 n => subst henc; simp [be32_length]
  | .suint16, v, bs, henc => by
    cases v <;> simp only [encode, Except.ok.injEq, reduceCtorEq] at henc
    case w16 n => subst henc; simp [be32_length]
  | .sword32, v, bs, henc => by
    cases v <;> simp only [encode, Except.ok.injEq, reduceCtorEq] at henc
    case w32 n => subst henc; simp [be32_length]
  | .sword64, v, bs, henc => by
    cases v <;> simp only [encode, Except.ok.injEq, reduceCtorEq] at henc
    case w64 n => subst henc; simp [be64_length]
  | .fixedOpaque n, v, bs, henc => by
    cases v <;> simp only [encode, Except.ok.injEq, reduceCtorEq] at henc
    case bytes body =>
      subst henc
      simp [encodeFixedOpaque_length, padTo4_mod]
  | .varOpaque max, v, bs, henc => by
    cases v <;> simp only [encode, reduceCtorEq] at henc
    case bytes body =>
      split at henc
      · cases henc
      · simp only [encodeOpaque] at henc
        split at henc
        · cases henc
        · simp only [Except.ok.injEq] at henc
          subst henc
          simp only [List.length_append, be32_length,
            encodeFixedOpaque_length]
          have := padTo4_mod body.length
          omega
  | .fixedString n, v, bs, henc => by
    cases v <;> simp only [encode, reduceCtorEq] at henc
    case str body =>
      split at henc
      · simp only [Except.ok.injEq] at henc
        subst henc
        simp only [encodeFixedString_length]
        exact padTo4_mod body.length
      · cases henc
  | .varString max, v, bs, henc => by
    cases v <;> simp only [encode, reduceCtorEq] at henc
    case str body =>
      split at henc
      · simp only [encodeString] at henc
        split at henc
        · cases henc
        · simp only [Except.ok.injEq] at henc
          subst henc
          simp only [List.length_append, be32_length,
            encodeFixedString_length]
          have := padTo4_mod body.length
          omega
      · cases henc
  | .fixedArray n e, v, bs, henc => by
    cases v <;> simp only [encode, reduceCtorEq] at henc
    case arr vs => exact encodeElems_length_mod4 e vs bs henc
  | .varArray max e, v, bs, henc => by
    cases v <;> simp only [encode, reduceCtorEq] at henc
    case arr vs =>
      split at henc
      · cases henc
      · cases hbody : encodeElems e vs with
        | error er => rw [hbody] at henc; cases henc
        | ok body =>
          rw [hbody] at henc
          simp only [Except.ok.injEq] at henc
          subst henc
          simp only [List.length_append, be32_length]
          have := encodeElems_length_mod4 e vs body hbody
          omega
  | .opt e, v, bs, henc => by
    cases v <;> simp only [encode, reduceCtorEq] at henc
    case vnone =>
      simp only [Except.ok.injEq] at henc
      subst henc
      simp [encodeBool_length]
    case vsome v =>
      cases hbody : encode e v with
      | error er => rw [hbody] at henc; cases henc
      | ok body =>
        rw [hbody] at henc
        simp only [Except.ok.injEq] at henc
        subst henc
        simp only [List.length_append, encodeBool_length]
        have := encode_length_mod4 e v body hbody
        omega
  | .sstruct fs, v, bs, henc => by
    cases v <;> simp only [encode, reduceCtorEq] at henc
    case vstruct vs => exact encodeFields_length_mod4 fs vs bs henc
  | .sunion sw cases_ dflt, v, bs, henc => by
    cases v <;> simp only [encode, reduceCtorEq] at henc
    case vunion disc arm =>
      cases hbody : encodeCases cases_ dflt disc arm with
      | error er => rw [hbody] at henc; cases henc
      | ok body =>
        rw [hbody] at henc
        simp only [Except.ok.injEq] at henc
        subst henc
        simp only [List.length_append, encodeSwitch_length]
        have := encodeCases_length_mod4 cases_ dflt disc arm body hbody
        omega
termination_by s _ _ _ => (sizeOf s, 0)
decreasing_by all_goals (simp_wf; omega)

/-- Length divisibility for element sequences. -/
theorem encodeElems_length_mod4 : ∀ (e : Schema) (vs : List Val)
    (bs : List Nat), encodeElems e vs = .ok bs → bs.length % 4 = 0
  | e, [], bs, henc => by
    simp only [encodeElems, Except.ok.injEq] at henc
    subst henc
    rfl
  | e, v :: vs, bs, henc => by
    cases hb : encode e v with
    | error er => simp only [encodeElems, hb, reduceCtorEq] at henc
    | ok b =>
      cases hbody : encodeElems e vs with
      | error er => simp only [encodeElems, hb, hbody, reduceCtorEq] at henc
      | ok body =>
        simp only [encodeElems, hb, hbody, Except.ok.injEq] at henc
        subst henc
        simp only [List.length_append]
        have h1 := encode_length_mod4 e v b hb
        have h2 := encodeElems_length_mod4 e vs body hbody
        omega
termination_by e vs _ _ => (sizeOf e, vs.length + 1)
decreasing_by all_goals (simp_wf; omega)

/-- Length divisibility for struct field sequences. -/
theorem encodeFields_length_mod4 : ∀ (ss : List Schema) (vs : List Val)
    (bs : List Nat), encodeFields ss vs = .ok bs → bs.length % 4 = 0
  | [], vs, bs, henc => by
    cases vs with
    | nil =>
      simp only [encodeFields, Except.ok.injEq] at henc
      subst henc
      rfl
    | cons v vs => simp only [encodeFields, reduceCtorEq] at henc
  | s :: ss, vs, bs, henc => by
    cases vs with
    | nil => simp only [encodeFields, reduceCtorEq] at henc
    | cons v vs =>
      cases hb : encode s v with
      | error er => simp only [encodeFields, hb, reduceCtorEq] at henc
      | ok b =>
        cases hbody : encodeFields ss vs with
        | error er =>
          simp only [encodeFields, hb, hbody, reduceCtorEq] at henc
        | ok body =>
          simp only [encodeFields, hb, hbody, Except.ok.injEq] at henc
          subst henc
          simp only [List.length_append]
          have h1 := encode_length_mod4 s v b hb
          have h2 := encodeFields_length_mod4 ss vs body hbody
          omega
termination_by ss _ _ _ => (sizeOf ss, 0)
decreasing_by all_goals (simp_wf; omega)

/-- Length divisibility for a union's selected arm. -/
theorem encodeCases_length_mod4 : ∀ (cs : List (Nat × Schema))
    (dflt : Option Schema) (disc : Nat) (arm : Val) (bs : List Nat),
    encodeCases cs dflt disc arm = .ok bs → bs.length % 4 = 0
  | [], none, disc, arm, bs, henc => by
    simp only [encodeCases, reduceCtorEq] at henc
  | [], some s, disc, arm, bs, henc => by
    simp only [encodeCases] at henc
    exact encode_length_mod4 s arm bs henc
  | (cv, cschema) :: cs, dflt, disc, arm, bs, henc => by
    by_cases hv : cv = disc
    · subst hv
      simp only [encodeCases, if_pos rfl] at henc
      exact encode_length_mod4 cschema arm bs henc
    · simp only [encodeCases, if_neg hv] at henc
      exact encodeCases_length_mod4 cs dflt disc arm bs henc
termination_by cs dflt _ _ _ _ => (sizeOf cs + sizeOf dflt, 0)
decreasing_by all_goals (simp_wf; omega)

end

theorem encodeCases_undefined (cs : List (Nat × Schema)) (disc : Nat)
    (arm : Val) (hnone : ∀ c ∈ cs, c.1 ≠ disc) :
    encodeCases cs none disc arm = .error .unionSwitchArmUndefined := by
  induction cs with
  | nil => simp [encodeCases]
  | cons c cs ih =>
    obtain ⟨cv, cschema⟩ := c
    have hne : cv ≠ disc := hnone (cv, cschema) (by simp)
    rw [encodeCases, if_neg hne]
    exact ih fun c hc => hnone c (List.mem_cons_of_mem _ hc)

theorem decodeCases_undefined (cs : List (Nat × Schema)) (disc : Nat)
    (input : List Nat) (hnone : ∀ c ∈ cs, c.1 ≠ disc) :
    decodeCases cs none disc input = .error .unionSwitchArmUndefined := by
  induction cs with
  | nil => simp [decodeCases]
  | cons c cs ih =>
    obtain ⟨cv, cschema⟩ := c
    have hne : cv ≠ disc := hnone (cv, cschema) (by simp)
    rw [decodeCases, if_neg hne]
    exact ih fun c hc => hnone c (List.mem_cons_of_mem _ hc)

/-- Go type kinds (`reflect.Kind`) as far as the tag layer inspects them. -/
inductive GoKind where
  | gbool
  | gint
  | gint8
  | gint16
  | gint32
  | gint64
  | guint
  | guint8
  | guint16
  | guint32
  | guint64
  | guintptr
  | gfloat32
  | gfloat64
  | gstring
  | gslice
  | garray
  | gmap
  | gptr
  | ginterface
  | gstruct
  | gchan
  | gfunc
  deriving DecidableEq, Repr

/-- `validForUnionSwitch` (part_014): the kinds the tag parser accepts for
a `union:switch` field — `Bool`, `Int`, `Int8`, `Int16`, `Int32`, `Int64`,
`Uint`, `Uint8`, `Uint16`, `Uint32`. -/
def validForUnionSwitch : GoKind → Bool
  | .gbool => true
  | .gint => true
  | .gint8 => true
  | .gint16 => true
  | .gint32 => true
  | .gint64 => true
  | .guint => true
  | .guint8 => true
  | .guint16 => true
  | .guint32 => true
  | _ => false

/-- `IsInUnion` (part_014): whether the field walk has established that
the enclosing struct is a union.  `maybeInUnion` holds exactly while no
non-skipped field has been seen. -/
inductive IsInUnion where
  | maybeInUnion
  | notInUnion
  | inUnion
  deriving DecidableEq, Repr

/-- Tag-parse rejections.  The source reports "Found field annotated with
union:switch tag which is not legal in a struct which is not a union or
already has a switch", "Type ... not legal for union switch", "Cannot
apply len: tag to an array; just specify length directly", and "Cannot
apply len: tag to ...; must be slice, string or map" as Go errors; only
their identity matters here. -/
inductive ParseErr where
  | unionSwitchNotLegalHere
  | typeNotLegalForSwitch
  | lenOnArray
  | lenOnBadType
  deriving DecidableEq, Repr

/-- The `union:switch` branch of `ParseTag` (part_014): rejected unless the
walk state is still `MaybeInUnion`, rejected when `validForUnionSwitch`
refuses the field's kind, otherwise accepted, flipping the struct to union
mode. -/
def parseUnionSwitch (t : GoKind) (isUnion : IsInUnion) :
    Except ParseErr IsInUnion :=
  if isUnion ≠ .maybeInUnion then .error .unionSwitchNotLegalHere
  else if !validForUnionSwitch t then .error .typeNotLegalForSwitch
  else .ok .inUnion

/-- The switch-field classification in `makeStructCodec` (part_009):
`int32`, `uint32` and `bool` get a switch kind; every other kind falls
into the `panic("Switch field of union not valid (must be int32, uint32
or bool)")` branch, modelled as `none`. -/
def switchKindOf : GoKind → Option SwitchKind
  | .gint32 => some .sint
  | .guint32 => some .suint
  | .gbool => some .sbool
  | _ => none

/-- The `len:` branch of `ParseTag` (part_014): arrays are rejected with
their own message, strings and slices accept the tag, anything else is
rejected. -/
def parseLenTag : GoKind → Except ParseErr Unit
  | .garray => .error .lenOnArray
  | .gstring => .ok ()
  | .gslice => .ok ()
  | _ => .error .lenOnBadType

/-- The head of the tag sequence as a codec builder inspects it:
`tags.XDRTagKind` of the first entry plus its value for `Len`/`MaxLen`.
`other` stands for any kind the builder at hand does not handle. -/
inductive TagHead where
  | noop
  | len (n : Nat)
  | maxlen (n : Nat)
  | other
  deriving DecidableEq, Repr

/-- A constructed codec: either a working one or an `errorCodec`
(part_007) that stores its construction error. -/
inductive BuiltCodec where
  | built (s : Schema)
  | errorCodec (e : Err)

/-- Using a built codec to encode: an `errorCodec` returns its stored
error on every use (`errorCodec.Encode`, part_007). -/
def BuiltCodec.encodeVal : BuiltCodec → Val → Except Err (List Nat)
  | .built s, v => encode s v
  | .errorCodec e, _ => .error e

/-- `makeStringCodec` (part_008): `len:` gives a fixed-string codec,
`maxlen:` a variable one, an empty tag the implicit maximum `2^32 - 1`;
any other tag kind yields an `InvalidTagForTypeError` codec.  The
`maxInt` clamp in the source is the identity for 32-bit tag values on a
64-bit host and is elided. -/
def makeStringCodec : TagHead → BuiltCodec
  | .len n => .built (.fixedString n)
  | .maxlen n => .built (.varString n)
  | .noop => .built (.varString (2 ^ 32 - 1))
  | .other => .errorCodec .invalidTagForType

/-- `makeSliceCodec` (part_003): only `maxlen:` and the empty tag are
handled — any other tag kind, `len:` included, becomes an
`InvalidTagForTypeError` codec.  `nextOpaque` is whether the next tag
layer is `Opaque` (byte slices become opaque codecs). -/
def makeSliceCodec (elem : Schema) (tag : TagHead) (nextOpaque : Bool) :
    BuiltCodec :=
  match tag with
  | .maxlen n =>
    if nextOpaque then .built (.varOpaque n) else .built (.varArray n elem)
  | .noop =>
    if nextOpaque then .built (.varOpaque (2 ^ 32 - 1))
    else .built (.varArray (2 ^ 32 - 1) elem)
  | _ => .errorCodec .invalidTagForType

/-- A struct field as `makeStructCodec` walks it: whether its tag is the
skip tag `-`, and the schema its codec would get otherwise. -/
structure GoField where
  skip : Bool
  schema : Schema

/-- The field list a struct codec ends up with (part_009): declaration
order with `Skip`-tagged fields left out; a struct none of whose fields
survive — the no-field struct included — becomes the degenerate empty
struct codec. -/
def structFields (fs : List GoField) : List Schema :=
  (fs.filter (fun f => !f.skip)).map GoField.schema

/-- Claim C1: for every value V of a supported type and every valid schema
S for it, decoding the bytes produced by encoding V under S yields V under
the type's own equality.  Floating-point components travel as raw bit
patterns (`math.Float32bits` / `Float32frombits` are mutually inverse on
patterns, modelled by carrying the pattern itself), so the round-trip is
bit-exact; bit-exactness in particular maps NaN patterns to NaN patterns,
which implies the claim's `is_nan`-based comparison. -/
theorem c1_roundtrip (s : Schema) (v : Val) (bs : List Nat)
    (hwf : wf s v = true) (henc : encode s v = .ok bs) :
    decode s bs = .ok (v, []) := by
  have h := decode_encode s v bs [] hwf henc
  rwa [List.append_nil] at h

theorem c1_roundtrip_witness :
    wf (Schema.varString 4) (Val.str [72, 105, 33]) = true ∧
    encode (Schema.varString 4) (Val.str [72, 105, 33]) =
      .ok [0, 0, 0, 3, 72, 105, 33, 0] ∧
    decode (Schema.varString 4) [0, 0, 0, 3, 72, 105, 33, 0] =
      .ok (Val.str [72, 105, 33], []) := by
  have hwf : wf (Schema.varString 4) (Val.str [72, 105, 33]) = true := by
    simp [wf]
  have henc : encode (Schema.varString 4) (Val.str [72, 105, 33]) =
      .ok [0, 0, 0, 3, 72, 105, 33, 0] := by
    simp [encode, encodeString, encodeFixedString, be32, byteOf, padOf]
  exact ⟨hwf, henc, c1_roundtrip _ _ _ hwf henc⟩

/-- Claim C2: every successful encoding has a byte length divisible by 4;
in particular a fixed-opaque body is emitted as the body followed by
exactly `(4 - len mod 4) mod 4` zero bytes. -/
theorem c2_encode_length (s : Schema) (v : Val) (bs : List Nat)
    (henc : encode s v = .ok bs) :
    bs.length % 4 = 0 ∧
    ∀ body : List Nat, encodeFixedOpaque body =
      body ++ List.replicate ((4 - body.length % 4) % 4) 0 :=
  ⟨encode_length_mod4 s v bs henc, fun _ => rfl⟩

theorem c2_encode_length_witness :
    encode (Schema.varOpaque 4) (Val.bytes [1, 2, 3]) =
      .ok [0, 0, 0, 3, 1, 2, 3, 0] ∧
    ([0, 0, 0, 3, 1, 2, 3, 0] : List Nat).length % 4 = 0 := by
  have henc : encode (Schema.varOpaque 4) (Val.bytes [1, 2, 3]) =
      .ok [0, 0, 0, 3, 1, 2, 3, 0] := by
    simp [encode, encodeOpaque, encodeFixedOpaque, be32, byteOf, padOf]
  exact ⟨henc, (c2_encode_length _ _ _ henc).1⟩

/-- Claim C3: a 4-byte wire word read as a boolean decodes to false at 0
and true at 1, and any other word — for example `00 00 00 02` — fails
with `InvalidValue`. -/
theorem c3_bool_domain (w : Nat) (rest : List Nat) (hw : w < 2 ^ 32) :
    decodeBool (be32 0 ++ rest) = .ok (false, rest) ∧
    decodeBool (be32 1 ++ rest) = .ok (true, rest) ∧
    (2 ≤ w → decodeBool (be32 w ++ rest) = .error .invalidValue) :=
  ⟨decodeBool_false rest, decodeBool_true rest,
   fun h2 => decodeBool_invalid w rest h2 hw⟩

theorem c3_bool_domain_witness :
    decodeBool [0, 0, 0, 0] = .ok (false, []) ∧
    decodeBool [0, 0, 0, 1] = .ok (true, []) ∧
    decodeBool [0, 0, 0, 2] = .error .invalidValue := by
  have h := c3_bool_domain 2 [] (by norm_num)
  exact ⟨h.1, h.2.1, h.2.2 (by norm_num)⟩

/-- Claim C4: a variable-length string, byte sequence, or value sequence
with schema maximum M refuses a value longer than M at encode time with
`LengthExceedsMax` (the `Except` result carries no wire bytes: the error
precedes the body), and refuses a wire length word greater than M at
decode time with `LengthExceedsMax`. -/
theorem c4_maxlen_exceeded (m l : Nat) (bs : List Nat) (vs : List Val)
    (e : Schema) (rest : List Nat) (hbs : m < bs.length)
    (hvs : m < vs.length) (hl : m < l) (hl32 : l < 2 ^ 32) :
    encode (Schema.varString m) (Val.str bs) =
      .error (.lengthExceedsMax bs.length m) ∧
    encode (Schema.varOpaque m) (Val.bytes bs) =
      .error (.lengthExceedsMax bs.length m) ∧
    encode (Schema.varArray m e) (Val.arr vs) =
      .error (.lengthExceedsMax vs.length m) ∧
    decode (Schema.varString m) (be32 l ++ rest) =
      .error (.lengthExceedsMax l m) ∧
    decode (Schema.varOpaque m) (be32 l ++ rest) =
      .error (.lengthExceedsMax l m) ∧
    decode (Schema.varArray m e) (be32 l ++ rest) =
      .error (.lengthExceedsMax l m) := by
  have hl0 : ¬ l = 0 := by omega
  refine ⟨?_, ?_, ?_, ?_, ?_, ?_⟩
  · rw [encode, if_neg (by omega)]
  · rw [encode, if_pos hbs]
  · rw [encode, if_pos hvs]
  · rw [decode, decodeString, decodeOpaque, rd32_be32 l rest hl32]
    simp only [hl0, if_false, hl, if_pos]
  · rw [decode, decodeOpaque, rd32_be32 l rest hl32]
    simp only [hl0, if_false, hl, if_pos]
  · rw [decode, rd32_be32 l rest hl32]
    simp only [hl0, if_false, hl, if_pos]

theorem c4_maxlen_exceeded_witness :
    encode (Schema.varString 4) (Val.str [72, 101, 108, 108, 111]) =
      .error (.lengthExceedsMax 5 4) ∧
    decode (Schema.varString 4) [0, 0, 0, 5, 72, 101, 108, 108, 111, 0, 0, 0] =
      .error (.lengthExceedsMax 5 4) := by
  have h := c4_maxlen_exceeded 4 5 [72, 101, 108, 108, 111]
    (List.replicate 5 Val.vnone) Schema.sword32
    [72, 101, 108, 108, 111, 0, 0, 0]
    (by norm_num) (by simp) (by norm_num) (by norm_num)
  exact ⟨h.1, h.2.2.2.1⟩

/-- Claim C5, code evaluation at the failing input: `DecodeOpaque` with
maximum 8 on the stream `00 00 00 05 01 02 03` — the length word says 5,
so `(5+3) & ^3 = 8` body-plus-padding bytes are needed, but only 3 are
present.  The source assigns the `io.ReadFull` error to `err` and then
returns `nil`, so the call succeeds with a zero-filled tail instead of
surfacing the read error.  (`DecodeString` shares this path.) -/
theorem c5_truncated_read_error_dropped :
    decodeOpaque 8 (be32 5 ++ [1, 2, 3]) = .ok ([1, 2, 3, 0, 0], []) ∧
    decodeString 8 (be32 5 ++ [1, 2, 3]) = .ok ([1, 2, 3, 0, 0], []) := by
  constructor <;> rfl

/-- Claim C6, code evaluation at the failing input: the claim says
`union:switch` is accepted only for a 32-bit integer or boolean first
field and rejected with an error otherwise.  In the source,
`validForUnionSwitch` also admits `int8` (and `int16`, `int64`, `int`,
`uint8`, `uint16`, `uint`), so `ParseTag` accepts the tag and flips the
struct to union mode — and `makeStructCodec` then hits its
`panic("Switch field of union not valid (must be int32, uint32 or
bool)")` branch (no switch kind exists for `int8`) instead of returning
an error to the caller.  The positive half of the claim does hold:
`int32`/`uint32`/`bool` are accepted and classified, a non-first field is
rejected, and a plainly invalid kind such as `string` is rejected. -/
theorem c6_union_switch_int8_accepted_then_panics :
    parseUnionSwitch GoKind.gint8 IsInUnion.maybeInUnion =
      .ok IsInUnion.inUnion ∧
    switchKindOf GoKind.gint8 = none ∧
    parseUnionSwitch GoKind.gint32 IsInUnion.maybeInUnion =
      .ok IsInUnion.inUnion ∧
    switchKindOf GoKind.gint32 = some SwitchKind.sint ∧
    switchKindOf GoKind.guint32 = some SwitchKind.suint ∧
    switchKindOf GoKind.gbool = some SwitchKind.sbool ∧
    parseUnionSwitch GoKind.gint32 IsInUnion.notInUnion =
      .error ParseErr.unionSwitchNotLegalHere ∧
    parseUnionSwitch GoKind.gstring IsInUnion.maybeInUnion =
      .error ParseErr.typeNotLegalForSwitch :=
  ⟨rfl, rfl, rfl, rfl, rfl, rfl, rfl, rfl⟩

/-- Claim C7, counterexample: for a slice field tagged `len:2` the claim
asserts the resulting codec encodes the value as a fixed-length 2-element
object.  In the source `makeSliceCodec` has no `Len` case, so the tag
falls into the default branch and the built codec is an `errorCodec`
whose every use fails with `InvalidTagForTypeError` — here evaluated on a
2-element slice value. -/
theorem c7_len_on_slice_is_error_codec :
    BuiltCodec.encodeVal
      (makeSliceCodec Schema.sword32 (TagHead.len 2) false)
      (Val.arr [Val.w32 1, Val.w32 2]) = .error Err.invalidTagForType := rfl

/-- Claim C7 as amended: `len:N` is rejected by the tag parser on
fixed-size-array types; on a string it builds the fixed-string codec,
which encodes exactly N bytes plus padding with no length word and fails
with `LengthIncorrect` for any other value length; on a slice the tag
parser accepts `len:N` but `makeSliceCodec` has no `Len` case, so the
built codec is an `errorCodec` failing with `InvalidTagForTypeError`
rather than a fixed-length codec. -/
theorem c7_len_tag_amended (n : Nat) (bs bs2 : List Nat) (e : Schema)
    (nextOp : Bool) (hlen : bs.length = n) (hbad : bs2.length ≠ n) :
    parseLenTag GoKind.garray = .error ParseErr.lenOnArray ∧
    makeStringCodec (TagHead.len n) = .built (Schema.fixedString n) ∧
    encode (Schema.fixedString n) (Val.str bs) =
      .ok (bs ++ List.replicate (padOf n) 0) ∧
    encode (Schema.fixedString n) (Val.str bs2) = .error .lengthIncorrect ∧
    makeSliceCodec e (TagHead.len n) nextOp =
      .errorCodec Err.invalidTagForType := by
  refine ⟨rfl, rfl, ?_, ?_, rfl⟩
  · rw [encode, if_pos hlen, encodeFixedString, hlen]
  · rw [encode, if_neg hbad]

theorem c7_len_tag_amended_witness :
    encode (Schema.fixedString 4) (Val.str [72, 105, 33, 33]) =
      .ok [72, 105, 33, 33] ∧
    encode (Schema.fixedString 4) (Val.str [72, 105]) =
      .error .lengthIncorrect := by
  have h := c7_len_tag_amended 4 [72, 105, 33, 33] [72, 105] Schema.sword32
    false (by norm_num) (by norm_num)
  refine ⟨?_, h.2.2.2.1⟩
  have h3 := h.2.2.1
  simpa [padOf] using h3

/-- Claim C8: a union whose case table lacks the current discriminant and
which has no default arm fails on both encode and decode with
`UnionSwitchArmUndefined`.  The decode conclusion holds for an arbitrary
`rest` after the discriminant word — whatever follows is never examined,
so only the discriminant word is consumed and no arm is decoded. -/
theorem c8_union_undefined_arm (sw : SwitchKind) (cs : List (Nat × Schema))
    (disc : Nat) (arm : Val) (rest : List Nat)
    (hnone : ∀ c ∈ cs, c.1 ≠ disc) (hdisc : discOK sw disc = true) :
    encode (Schema.sunion sw cs none) (Val.vunion disc arm) =
      .error .unionSwitchArmUndefined ∧
    decode (Schema.sunion sw cs none) (encodeSwitch sw disc ++ rest) =
      .error .unionSwitchArmUndefined := by
  constructor
  · rw [encode, encodeCases_undefined cs disc arm hnone]
  · rw [decode, decodeSwitch_encodeSwitch sw disc rest hdisc]
    dsimp only
    rw [decodeCases_undefined cs disc rest hnone]

theorem c8_union_undefined_arm_witness :
    encode (Schema.sunion SwitchKind.suint [(0, Schema.sword32)] none)
      (Val.vunion 7 (Val.w32 0)) = .error .unionSwitchArmUndefined ∧
    decode (Schema.sunion SwitchKind.suint [(0, Schema.sword32)] none)
      (encodeSwitch SwitchKind.suint 7 ++ [9, 9]) =
      .error .unionSwitchArmUndefined := by
  exact c8_union_undefined_arm SwitchKind.suint [(0, Schema.sword32)] 7
    (Val.w32 0) [9, 9]
    (by intro c hc; simp only [List.mem_singleton] at hc; subst hc; norm_num)
    (by norm_num [discOK])

/-- Claim C9: a struct with no fields, or whose fields are all tagged `-`,
gets the degenerate empty struct codec: it encodes any value of the type
to zero bytes and decodes by consuming zero bytes, always succeeding.
(The codec's view of such a value is the empty field list `vstruct []`;
skipped fields are not part of the codec.) -/
theorem c9_empty_struct (fs : List GoField) (input : List Nat)
    (hskip : ∀ f ∈ fs, f.skip = true) :
    structFields fs = [] ∧
    encode (Schema.sstruct (structFields fs)) (Val.vstruct []) = .ok [] ∧
    decode (Schema.sstruct (structFields fs)) input =
      .ok (Val.vstruct [], input) := by
  have hnil : structFields fs = [] := by
    rw [structFields, List.filter_eq_nil_iff.mpr, List.map_nil]
    intro f hf
    simp [hskip f hf]
  refine ⟨hnil, ?_, ?_⟩
  · rw [hnil, encode, encodeFields]
  · rw [hnil, decode, decodeFields]

theorem c9_empty_struct_witness :
    structFields [⟨true, Schema.sword32⟩, ⟨true, Schema.sbool⟩] = [] ∧
    encode (Schema.sstruct
        (structFields [⟨true, Schema.sword32⟩, ⟨true, Schema.sbool⟩]))
      (Val.vstruct []) = .ok [] ∧
    decode (Schema.sstruct
        (structFields [⟨true, Schema.sword32⟩, ⟨true, Schema.sbool⟩]))
      [9, 8, 7] = .ok (Val.vstruct [], [9, 8, 7]) :=
  c9_empty_struct [⟨true, Schema.sword32⟩, ⟨true, Schema.sbool⟩] [9, 8, 7]
    (by intro f hf; simp only [List.mem_cons,
      List.not_mem_nil, or_false] at hf; rcases hf with h | h <;> simp [h])

/-- Claim C10: an 8- or 16-bit integer field decodes by reading a full
4-byte wire word and storing only its low-order 8 or 16 bits; a word
outside the field's range yields no error — `int8(i)` / `int16(i)` in the
unsafe path and `reflect.Value.SetInt` / `SetUint` in the reflect path
both truncate. -/
theorem c10_small_int_truncation (w : Nat) (rest : List Nat)
    (hw : w < 2 ^ 32) :
    decode Schema.sint8 (be32 w ++ rest) = .ok (Val.w8 (w % 2 ^ 8), rest) ∧
    decode Schema.suint8 (be32 w ++ rest) = .ok (Val.w8 (w % 2 ^ 8), rest) ∧
    decode Schema.sint16 (be32 w ++ rest) =
      .ok (Val.w16 (w % 2 ^ 16), rest) ∧
    decode Schema.suint16 (be32 w ++ rest) =
      .ok (Val.w16 (w % 2 ^ 16), rest) := by
  refine ⟨?_, ?_, ?_, ?_⟩ <;>
    rw [decode, rd32_be32 w rest hw]

theorem c10_small_int_truncation_witness :
    decode Schema.sint8 (be32 0x12345678) =
      .ok (Val.w8 0x78, []) ∧
    decode Schema.suint16 (be32 0x12345678) =
      .ok (Val.w16 0x5678, []) := by
  have h := c10_small_int_truncation 0x12345678 [] (by norm_num)
  have h1 := h.1
  have h2 := h.2.2.2
  norm_num at h1 h2
  exact ⟨by simpa using h1, by simpa using h2⟩
